import Mathlib

/-!
Shallow embedding of the pipeline engine of the LW-Egosuite-DevKit repository
(src/foxglove_backend/base/base_pipeline.py and base_generator.py).

A record is a tuple (topic, payload, timestamp).  Payloads are modelled as
Option String: a real payload is some s, and Python None (the payload of the
synthetic sentinel record, and the result of a missing dict lookup) is none.
Timestamps are Int (int64 nanoseconds in the source).
-/

/-- A payload.  none models Python None. -/
abbrev Msg := Option String

/-- A record (topic, payload, timestamp) as yielded by a reader. -/
abbrev Rec := String × Msg × Int

/-- Comparison of payloads, as used by Python tuple comparison inside
heapq.merge when the topics of two records are equal.  (In Python, comparing
None with a value, or two non-comparable payloads, would raise; the model
totalises the order.  No claim depends on payload ties.) -/
def msgCmp : Msg → Msg → Ordering
  | none, none => .eq
  | none, some _ => .lt
  | some _, none => .gt
  | some a, some b => compare a b

/-- Python comparison of whole record tuples (topic, msg, ts): this is the
key actually used by BasePipeline.get_merge_queue, whose heapq.merge call is
keyed by the identity function (key=lambda x: x). -/
def recCmp (a b : Rec) : Ordering :=
  match compare a.1 b.1 with
  | .lt => .lt
  | .gt => .gt
  | .eq =>
    match msgCmp a.2.1 b.2.1 with
    | .lt => .lt
    | .gt => .gt
    | .eq => compare a.2.2 b.2.2

/-- A source that may raise mid-iteration: the records it yields before the
raise, and whether advancing past the last record raises (true) or ends
normally with StopIteration (false). -/
abbrev FSource := List Rec × Bool

/-- A heap entry of heapq.merge: (source order index, current value, rest of
the iterator, raises-at-end flag). -/
abbrev Ent := Nat × Rec × List Rec × Bool

/-- Strict order on heap entries: by the merge key (here: the record itself,
since the source code uses key=lambda x: x), ties broken by source index,
exactly the [key, order, value, next] list comparison of heapq.merge. -/
def entLt (a b : Ent) : Bool :=
  match recCmp a.2.1 b.2.1 with
  | .lt => true
  | .gt => false
  | .eq => a.1 < b.1

/-- Pop the minimal heap entry (and keep the rest). -/
def pickMin : List Ent → Option (Ent × List Ent)
  | [] => none
  | e :: rest =>
    match pickMin rest with
    | none => some (e, [])
    | some (m, others) =>
      if entLt m e then some (m, e :: others) else some (e, m :: others)

/-- Size of an entry: its current value plus the rest of its iterator. -/
def entSize (e : Ent) : Nat := e.2.2.1.length + 1

/-- Total number of records still held by the heap. -/
def entsSize (l : List Ent) : Nat := (l.map entSize).sum

/-- The running loop of heapq.merge: pop the minimal entry, yield its value,
advance its iterator (a raise at that point propagates: the output stops for
every source and the error flag is set).  Fuel-indexed; hmergeE supplies
exactly enough fuel. -/
def mergeRun : Nat → List Ent → List Rec × Bool
  | 0, _ => ([], false)
  | Nat.succ n, ents =>
    match pickMin ents with
    | none => ([], false)
    | some ((idx, r, rest, f), others) =>
      match rest with
      | [] =>
        if f then ([r], true)
        else
          let res := mergeRun n others
          (r :: res.1, res.2)
      | r' :: rest' =>
        let res := mergeRun n ((idx, r', rest', f) :: others)
        (r :: res.1, res.2)

/-- The heap construction of heapq.merge: one initial next() per source, in
source order.  An empty source that raises does so here, before anything is
yielded (none); an empty source that ends normally is skipped. -/
def buildEnts : Nat → List FSource → Option (List Ent)
  | _, [] => some []
  | idx, (src, f) :: rest =>
    match src with
    | [] => if f then none else buildEnts (idx + 1) rest
    | r :: rs =>
      match buildEnts (idx + 1) rest with
      | none => none
      | some ents => some ((idx, r, rs, f) :: ents)

/-- heapq.merge over possibly-failing sources, as called by
BasePipeline.get_merge_queue: the records delivered to the consumer before
normal exhaustion or the first raise, and whether a raise occurred. -/
def hmergeE (srcs : List FSource) : List Rec × Bool :=
  match buildEnts 0 srcs with
  | none => ([], true)
  | some ents => mergeRun (entsSize ents) ents

/-- heapq.merge over non-failing sources. -/
def hmerge (srcs : List (List Rec)) : List Rec :=
  (hmergeE (srcs.map (fun l => (l, false)))).1

/-- An extended timestamp bound: BasePipeline defaults start_ts to -math.inf
and end_ts to math.inf. -/
inductive ETS where
  | negInf
  | fin (t : Int)
  | posInf
deriving DecidableEq

/-- ts < bound (the start_ts test of get_merge_queue). -/
def tsLt (ts : Int) : ETS → Bool
  | .negInf => false
  | .fin s => decide (ts < s)
  | .posInf => true

/-- ts > bound (the end_ts test of get_merge_queue). -/
def tsGt (ts : Int) : ETS → Bool
  | .negInf => true
  | .fin e => decide (ts > e)
  | .posInf => false

namespace BasePipeline

/-- The time-window loop of BasePipeline.get_merge_queue: skip records with
ts < start_ts, stop the whole stream at the first record with ts > end_ts,
yield everything else. -/
def mergeFilter (start_ts end_ts : ETS) : List Rec → List Rec
  | [] => []
  | r :: rest =>
    if tsLt r.2.2 start_ts then mergeFilter start_ts end_ts rest
    else if tsGt r.2.2 end_ts then []
    else r :: mergeFilter start_ts end_ts rest

/-- BasePipeline.get_merge_queue: heapq.merge over the readers, keyed by the
identity function (key=lambda x: x), then the time-window loop. -/
def get_merge_queue (start_ts end_ts : ETS) (readers : List (List Rec)) :
    List Rec :=
  mergeFilter start_ts end_ts (hmerge readers)

/-- BasePipeline.filter: prepend the synthetic sentinel record
("initialize", None, ts-of-first-record-or-0) to the stream. -/
def filter (l : List Rec) : List Rec :=
  match l with
  | [] => [("initialize", none, 0)]
  | first :: rest => ("initialize", none, first.2.2) :: first :: rest

/-- The loop body of BasePipeline.chunk: buf holds (reversed) the records
written into the current buffer round, count is the running enumerate index.
When count % size == 0 and count != 0 the previous round's full buffer is
yielded; after the loop the current buffer slice buffer[:i+1] (here
buf.reverse) is yielded unless no record was seen.  (For size = 0 the Python
code raises ZeroDivisionError; the model is used at size >= 1 only.) -/
def chunkGo (size : Nat) (buf : List Rec) (count : Nat) :
    List Rec → List (List Rec)
  | [] => if count = 0 then [] else [buf.reverse]
  | r :: rest =>
    if count % size = 0 ∧ count ≠ 0 then
      buf.reverse :: chunkGo size [r] (count + 1) rest
    else
      chunkGo size (r :: buf) (count + 1) rest

/-- BasePipeline.chunk. -/
def chunk (size : Nat) (l : List Rec) : List (List Rec) :=
  chunkGo size [] 0 l

end BasePipeline

/-- An output tuple (output_topic, serialized_payload, timestamp) as produced
by Generator call invocations and consumed by the writer. -/
abbrev Out := String × String × Int

/-- A transform instance (a Generator), as seen by the pipeline: the topics
it listens to (None or a list of topic names) and its call behaviour: given
(msg, ts, correlated payloads) it yields some outputs and may then raise
(flag true). -/
structure Processor where
  listen_to : Option (List String)
  run : Msg → Int → List Msg → List Out × Bool

/-- Lookup in the PROCESSORS defaultdict(list): the processor list registered
for a topic, or the empty list. -/
def lookupProcs (ps : List (String × List Processor)) (t : String) :
    List Processor :=
  match ps.find? (fun p => p.1 == t) with
  | some p => p.2
  | none => []

/-- One element of a worker batch, the tuple
(src_topic, i, msg, listen_to_msg, ts) yielded by BasePipeline.format. -/
structure Entry where
  src_topic : String
  idx : Nat
  msg : Msg
  listen : List Msg
  ts : Int
deriving DecidableEq

/-- The per-entry try block of process_worker: look the processor up by topic
and index (an IndexError is caught like any other exception) and keep the
outputs it yielded before raising, if it raised. -/
def entryOut (ps : List (String × List Processor)) (e : Entry) : List Out :=
  match (lookupProcs ps e.src_topic)[e.idx]? with
  | none => []
  | some p => (p.run e.msg e.ts e.listen).1

/-- process_worker: run every entry of the batch in order, appending each
entry's outputs to the shared buffer; an exception inside one entry is caught
and logged and the loop moves on to the next entry. -/
def process_worker (ps : List (String × List Processor))
    (reses : List Entry) : List Out :=
  reses.foldl (fun buffer e => buffer ++ entryOut ps e) []

/-- Lookup in the last_msg dict (self.last_msg.get(t)): the most recently
stored payload for t, or None.  The dict is modelled as an association list
whose most recent binding is first. -/
def lookupLast (last : List (String × Msg)) (t : String) : Msg :=
  match last.find? (fun p => p.1 == t) with
  | some p => p.2
  | none => none

/-- The listen_to_msg argument list built by BasePipeline.format for one
processor: one last_msg lookup per listened topic (the Python expression
yields the empty tuple when listen_to is None or empty; mapping over the
empty list agrees with both). -/
def listenArgs (p : Processor) (last : List (String × Msg)) : List Msg :=
  match p.listen_to with
  | none => []
  | some ts => ts.map (lookupLast last)

namespace BasePipeline

/-- The entries BasePipeline.format yields for one record: one per processor
registered for the record's topic, in registration order, carrying the
processor index and the correlated payloads read from last_msg. -/
def recEntries (ps : List (String × List Processor))
    (last : List (String × Msg)) (r : Rec) : List Entry :=
  ((lookupProcs ps r.1).enum).map
    (fun ip => ⟨r.1, ip.1, r.2.1, listenArgs ip.2 last, r.2.2⟩)

/-- BasePipeline.format: for each record in merge order, first store its
payload in last_msg if its topic is in LISTENED_TOPICS, then yield one entry
per registered processor, reading correlated payloads from the updated
last_msg. -/
def format (ps : List (String × List Processor)) (listened : List String)
    (last : List (String × Msg)) : List Rec → List Entry
  | [] => []
  | r :: rest =>
    let last' := if r.1 ∈ listened then (r.1, r.2.1) :: last else last
    recEntries ps last' r ++ format ps listened last' rest

/-- The last_msg dict left behind by BasePipeline.format after a stream. -/
def formatState (listened : List String) (last : List (String × Msg)) :
    List Rec → List (String × Msg)
  | [] => last
  | r :: rest =>
    formatState listened
      (if r.1 ∈ listened then (r.1, r.2.1) :: last else last) rest

/-- A future handed through the pool_ref_queue: its ResultBatch value and a
completion stamp recording when the underlying computation finished (the
stamp is data the blocking ref.get() call never looks at). -/
def ref_get (r : List Out × Nat) : List Out := r.1

/-- BasePipeline.pool_ref_getter: pop refs from the FIFO pool_ref_queue in
submission order, block on each with ref.get(), forward the batch to the
writer queue; when the None sentinel is popped the loop exits and the finally
block forwards a terminal None (here: none) to the writer queue. -/
def pool_ref_getter : List (List Out × Nat) → List (Option (List Out))
  | [] => [none]
  | r :: rest => some (ref_get r) :: pool_ref_getter rest

end BasePipeline

/-- A protobuf message value; serialisation is modelled as extracting its
wire string. -/
structure PbMsg where
  data : String
deriving DecidableEq

/-- msg.SerializeToString(). -/
def serializeToString (m : PbMsg) : String := m.data

/-- One result yielded by Generator.generate: a 2-tuple (topic, msg) or a
3-tuple (topic, msg, custom_timestamp). -/
inductive GenItem where
  | pair (topic : String) (msg : PbMsg)
  | triple (topic : String) (msg : PbMsg) (custom_timestamp : Int)
deriving DecidableEq

/-- The Generator message-type tag. -/
inductive MessageTypes where
  | ROS
  | PROTO
deriving DecidableEq

/-- The emission loop of Generator.__call__: a 3-tuple keeps its own
timestamp, a 2-tuple inherits the input timestamp. -/
def callLoop (timestamp : Int) : List GenItem → List Out
  | [] => []
  | .triple t m c :: rest => (t, serializeToString m, c) :: callLoop timestamp rest
  | .pair t m :: rest => (t, serializeToString m, timestamp) :: callLoop timestamp rest

/-- Generator.__call__: only the PROTO branch is implemented (the other
raises NotImplementedError, modelled as none). -/
def generatorCall (mt : MessageTypes)
    (generate : Msg → Int → List Msg → List GenItem)
    (msg : Msg) (timestamp : Int) (listen : List Msg) : Option (List Out) :=
  match mt with
  | .PROTO => some (callLoop timestamp (generate msg timestamp listen))
  | .ROS => none

/-- A reader as seen by BasePipeline._add_reader: its raw_topic and the
processor instances matched for it (reader.get_processors() returns the
one-entry mapping raw_topic -> processors). -/
structure ReaderModel where
  raw_topic : String
  processors : List Processor

/-- The process-global registries PROCESSORS (a defaultdict(list)) and
LISTENED_TOPICS (a set, modelled as a list up to membership). -/
structure GlobalTables where
  PROCESSORS : List (String × List Processor)
  LISTENED_TOPICS : List String

/-- PROCESSORS[t].extend(new): extend the existing list in place, or create
the key (at insertion-order end) if absent. -/
def extendProcs (ps : List (String × List Processor)) (t : String)
    (new : List Processor) : List (String × List Processor) :=
  if (ps.find? (fun p => p.1 == t)).isSome then
    ps.map (fun p => if p.1 == t then (p.1, p.2 ++ new) else p)
  else
    ps ++ [(t, new)]

/-- The listened topics contributed by a reader's processors:
LISTENED_TOPICS.update(processor.listen_to) for every processor whose
listen_to is not None. -/
def listenedOf (procs : List Processor) : List String :=
  procs.foldl (fun acc p => acc ++ p.listen_to.getD []) []

/-- The registry mutation performed by BasePipeline._add_reader. -/
def add_reader (g : GlobalTables) (r : ReaderModel) : GlobalTables :=
  { PROCESSORS := extendProcs g.PROCESSORS r.raw_topic r.processors,
    LISTENED_TOPICS := g.LISTENED_TOPICS ++ listenedOf r.processors }

/-- Spec-side characterisation of chunking: the list split into consecutive
groups of the given size, the last group possibly short. -/
def chunksStd (size : Nat) : List Rec → List (List Rec)
  | [] => []
  | r :: rest =>
    (r :: rest.take (size - 1)) :: chunksStd size (rest.drop (size - 1))
termination_by l => l.length
decreasing_by simp [List.length_drop]; omega

/-- Spec-side definition, following the spec's words: the most recent payload
of topic t in the given prefix of the merged stream, or none if no record of
that topic has occurred yet. -/
def lastOf (t : String) (pre : List Rec) : Msg :=
  match (pre.filter (fun r => r.1 == t)).getLast? with
  | some r => r.2.1
  | none => none

/-- Spec-side definition, following the spec's words: the correlated payloads
a processor observes, one most-recent payload per listened topic. -/
def specListen (p : Processor) (pre : List Rec) : List Msg :=
  match p.listen_to with
  | none => []
  | some ts => ts.map (fun t => lastOf t pre)

/-- Spec-side definition, following the spec's words (refinement target for
BasePipeline.format): for the k-th record of the stream, one entry per
registered processor in registration order, whose correlated payloads are the
most recent payloads seen in merge order up to and including that record.
pre is the already-processed prefix. -/
def specFormat (ps : List (String × List Processor)) (pre : List Rec) :
    List Rec → List Entry
  | [] => []
  | r :: rest =>
    ((lookupProcs ps r.1).enum).map
        (fun ip => ⟨r.1, ip.1, r.2.1, specListen ip.2 (pre ++ [r]), r.2.2⟩)
      ++ specFormat ps (pre ++ [r]) rest

/-- An entry with its raises-at-end flag cleared, for comparing a failing
merge with the corresponding failure-free merge. -/
def clearEnt (e : Ent) : Ent := (e.1, e.2.1, e.2.2.1, false)

/-- Whether a record stream is non-decreasing in timestamp. -/
def tsSorted : List Rec → Bool
  | [] => true
  | [_] => true
  | a :: b :: rest => (decide (a.2.2 ≤ b.2.2)) && tsSorted (b :: rest)


/-! ## Theorems -/

/-- Claim C1 (code evaluation at the failing input): with source A emitting
(topicX, a1, 10), (topicX, a2, 30) and source B emitting (topicY, b1, 20) and
no time filter, BasePipeline.get_merge_queue yields a1(10), a2(30), b1(20):
the heapq.merge call is keyed by the whole record tuple (key=lambda x: x), so
the output is grouped by topic and is neither non-decreasing in timestamp nor
the claimed order a1(10), b1(20), a2(30). -/
theorem C1_merge_key_bug :
    BasePipeline.get_merge_queue ETS.negInf ETS.posInf
        [[("topicX", some "a1", 10), ("topicX", some "a2", 30)],
         [("topicY", some "b1", 20)]]
      = [("topicX", some "a1", 10), ("topicX", some "a2", 30),
         ("topicY", some "b1", 20)]
    ∧ tsSorted
        (BasePipeline.get_merge_queue ETS.negInf ETS.posInf
          [[("topicX", some "a1", 10), ("topicX", some "a2", 30)],
           [("topicY", some "b1", 20)]]) = false
    ∧ BasePipeline.get_merge_queue ETS.negInf ETS.posInf
        [[("topicX", some "a1", 10), ("topicX", some "a2", 30)],
         [("topicY", some "b1", 20)]]
      ≠ [("topicX", some "a1", 10), ("topicY", some "b1", 20),
         ("topicX", some "a2", 30)] := by
  refine ⟨by decide, by decide, by decide⟩

/-- Claim C3: BasePipeline.filter emits first a synthetic sentinel record
with topic "initialize" and payload None carrying the timestamp of the first
real record (0 if the input is empty), followed by all real records unchanged
and in order. -/
theorem C3_sentinel (l : List Rec) :
    (BasePipeline.filter l).head?
        = some ("initialize", (none : Msg),
                ((l.head?).map (fun r => r.2.2)).getD 0)
    ∧ (BasePipeline.filter l).tail = l := by
  cases l <;> simp [BasePipeline.filter]

/-- The emission loop of Generator.call, as a map. -/
theorem callLoop_eq_map (t : Int) (items : List GenItem) :
    callLoop t items = items.map (fun item =>
      match item with
      | .pair tp m => (tp, serializeToString m, t)
      | .triple tp m c => (tp, serializeToString m, c)) := by
  induction items with
  | nil => rfl
  | cons i rest ih => cases i <;> simp [callLoop, ih]

/-- Claim C9: in a Generator call (PROTO branch), every 2-tuple (topic, msg)
yielded by generate is emitted as (topic, msg.SerializeToString(), t) with t
the input timestamp, and only a 3-tuple overrides the timestamp, emitting
(topic, msg.SerializeToString(), custom_timestamp). -/
theorem C9_generator_timestamp
    (generate : Msg → Int → List Msg → List GenItem)
    (msg : Msg) (t : Int) (listen : List Msg) :
    generatorCall .PROTO generate msg t listen
      = some ((generate msg t listen).map (fun item =>
          match item with
          | .pair tp m => (tp, serializeToString m, t)
          | .triple tp m c => (tp, serializeToString m, c))) := by
  simp [generatorCall, callLoop_eq_map]

/-- The result-forwarding loop, in closed form. -/
theorem poolRefGetter_eq_map (refs : List (List Out × Nat)) :
    BasePipeline.pool_ref_getter refs
      = refs.map (fun r => some r.1) ++ [none] := by
  induction refs with
  | nil => rfl
  | cons r rest ih =>
    simp [BasePipeline.pool_ref_getter, BasePipeline.ref_get, ih]

/-- Claim C8: the result-forwarding loop forwards each future's ResultBatch
in submission order, ending with the terminal none sentinel; the output does
not depend on the completion stamps of the futures, only on their values (if
batch 2 completes before batch 1, batch 1 is still forwarded first). -/
theorem C8_ordered_collector (refs : List (List Out × Nat)) :
    BasePipeline.pool_ref_getter refs
        = refs.map (fun r => some r.1) ++ [none]
    ∧ ∀ refs2 : List (List Out × Nat),
        refs.map Prod.fst = refs2.map Prod.fst →
        BasePipeline.pool_ref_getter refs
          = BasePipeline.pool_ref_getter refs2 := by
  refine ⟨poolRefGetter_eq_map refs, fun refs2 hval => ?_⟩
  rw [poolRefGetter_eq_map, poolRefGetter_eq_map]
  have h : refs.map (fun r => some r.1) = refs2.map (fun r => some r.1) := by
    have h2 := congrArg (List.map (fun v => some v)) hval
    simpa [List.map_map, Function.comp] using h2
  rw [h]

/-- Witness for C8 at a concrete input: two futures with swapped completion
stamps are forwarded identically, in submission order. -/
theorem C8_ordered_collector_w :
    BasePipeline.pool_ref_getter [([("o1", "p1", 1)], 2), ([("o2", "p2", 2)], 1)]
      = BasePipeline.pool_ref_getter
          [([("o1", "p1", 1)], 1), ([("o2", "p2", 2)], 2)] :=
  (C8_ordered_collector _).2 _ (by decide)

/-- The worker buffer fold, with the accumulated buffer made explicit. -/
theorem process_worker_buffer (ps : List (String × List Processor)) :
    ∀ (l : List Entry) (init : List Out),
      List.foldl (fun buffer e => buffer ++ entryOut ps e) init l
        = init ++ process_worker ps l := by
  intro l
  induction l with
  | nil => intro init; simp [process_worker]
  | cons e rest ih =>
    intro init
    have hcons : process_worker ps (e :: rest)
        = entryOut ps e ++ process_worker ps rest := by
      have h0 := ih (entryOut ps e)
      simpa [process_worker] using h0
    rw [List.foldl_cons, ih (init ++ entryOut ps e), hcons, List.append_assoc]

/-- Claim C6: process_worker runs every entry of a batch independently and in
entry order: the batch output decomposes around any chosen entry, whose own
contribution (entryOut) is the outputs its processor yielded before a
possible raise; the raise is caught and the entries after it still execute.
The second conjunct makes explicit that entryOut keeps the pre-raise outputs
whether or not the processor raised (the raise flag is ignored). -/
theorem C6_worker_isolation (ps : List (String × List Processor))
    (l1 : List Entry) (e : Entry) (l2 : List Entry) :
    process_worker ps (l1 ++ e :: l2)
        = process_worker ps l1 ++ entryOut ps e ++ process_worker ps l2
    ∧ ∀ p : Processor, (lookupProcs ps e.src_topic)[e.idx]? = some p →
        entryOut ps e = (p.run e.msg e.ts e.listen).1 := by
  constructor
  · simp only [process_worker, List.foldl_append]
    rw [process_worker_buffer ps l1 []]
    simp only [List.nil_append, List.foldl_cons]
    rw [process_worker_buffer ps l2 (process_worker ps l1 ++ entryOut ps e)]
    simp [process_worker, List.append_assoc]
  · intro p hp
    simp [entryOut, hp]

/-- Witness for C6 at a concrete input: a processor that raises after
yielding one output still contributes that output. -/
theorem C6_worker_isolation_w :
    entryOut [("t", [⟨none, fun _ _ _ => ([("x", "y", 1)], true)⟩])]
        ⟨"t", 0, none, [], 5⟩
      = [("x", "y", 1)] :=
  ((C6_worker_isolation
      [("t", [⟨none, fun _ _ _ => ([("x", "y", 1)], true)⟩])]
      [] ⟨"t", 0, none, [], 5⟩ []).2
    ⟨none, fun _ _ _ => ([("x", "y", 1)], true)⟩ rfl).trans rfl


/-- find? by key commutes with the key-preserving rewrite used by
extendProcs. -/
theorem find?_extend_map (ps : List (String × List Processor))
    (t t' : String) (new : List Processor) :
    (ps.map (fun p => if p.1 == t then (p.1, p.2 ++ new) else p)).find?
        (fun p => p.1 == t')
      = (ps.find? (fun p => p.1 == t')).map
          (fun p => if p.1 == t then (p.1, p.2 ++ new) else p) := by
  induction ps with
  | nil => rfl
  | cons p rest ih =>
    have hkey : ((if p.1 == t then (p.1, p.2 ++ new) else p).1 == t')
        = (p.1 == t') := by
      by_cases hp : p.1 == t <;> simp [hp]
    simp only [List.map_cons, List.find?_cons, hkey]
    cases hp' : (p.1 == t') with
    | true => simp
    | false => simpa using ih

/-- The extended table looks up its own topic as the old list plus the new
processors. -/
theorem lookupProcs_extend_self (ps : List (String × List Processor))
    (t : String) (new : List Processor) :
    lookupProcs (extendProcs ps t new) t = lookupProcs ps t ++ new := by
  unfold extendProcs
  by_cases hfind : (ps.find? (fun p => p.1 == t)).isSome
  · rw [if_pos hfind]
    obtain ⟨q, hq⟩ := Option.isSome_iff_exists.mp hfind
    have hqt : (q.1 == t) = true := by
      have h0 := List.find?_some hq
      simpa using h0
    unfold lookupProcs
    rw [find?_extend_map, hq]
    have hq1 : q.1 = t := by simpa using hqt
    simp [hq1]
  · rw [if_neg hfind]
    have hnone : ps.find? (fun p => p.1 == t) = none :=
      Option.not_isSome_iff_eq_none.mp hfind
    unfold lookupProcs
    rw [List.find?_append, hnone]
    simp [hnone]

/-- The extended table looks up every other topic unchanged. -/
theorem lookupProcs_extend_other (ps : List (String × List Processor))
    (t : String) (new : List Processor) (t' : String) (h : t' ≠ t) :
    lookupProcs (extendProcs ps t new) t' = lookupProcs ps t' := by
  unfold extendProcs
  by_cases hfind : (ps.find? (fun p => p.1 == t)).isSome
  · rw [if_pos hfind]
    unfold lookupProcs
    rw [find?_extend_map]
    cases hq : ps.find? (fun p => p.1 == t') with
    | none => simp
    | some q =>
      have hqt' : (q.1 == t') = true := by
        have h0 := List.find?_some hq
        simpa using h0
      have hqt : (q.1 == t) = false := by
        have hq1 : q.1 = t' := by simpa using hqt'
        simp [hq1, h]
      have hne : ¬ q.1 = t := by simpa using hqt
      simp [hne]
  · rw [if_neg hfind]
    unfold lookupProcs
    rw [List.find?_append]
    have htt' : (t == t') = false := by
      refine beq_eq_false_iff_ne.mpr ?_
      exact fun hh => h hh.symm
    have hnone2 : ([(t, new)].find? (fun p => p.1 == t')) = none := by
      simp [List.find?_cons, htt']
    rw [hnone2]
    simp

/-- Membership in the accumulated listened-topics contribution of a reader. -/
theorem mem_listenedOf_aux (procs : List Processor) :
    ∀ (acc : List String) (t : String),
      t ∈ procs.foldl (fun acc p => acc ++ p.listen_to.getD []) acc ↔
        t ∈ acc ∨ ∃ p ∈ procs, t ∈ p.listen_to.getD [] := by
  induction procs with
  | nil => intro acc t; simp
  | cons q rest ih =>
    intro acc t
    rw [List.foldl_cons, ih]
    simp [List.mem_append, or_assoc]

/-- Claim C10: _add_reader appends to the process-global registries: the
raw_topic's processor list becomes the old list plus the reader's processors,
other topics are untouched, LISTENED_TOPICS only grows, and it gains exactly
the topics the new processors listen to. -/
theorem C10_registry_append (g : GlobalTables) (r : ReaderModel) :
    lookupProcs (add_reader g r).PROCESSORS r.raw_topic
        = lookupProcs g.PROCESSORS r.raw_topic ++ r.processors
    ∧ (∀ t : String, t ≠ r.raw_topic →
        lookupProcs (add_reader g r).PROCESSORS t = lookupProcs g.PROCESSORS t)
    ∧ g.LISTENED_TOPICS ⊆ (add_reader g r).LISTENED_TOPICS
    ∧ (∀ t : String, t ∈ (add_reader g r).LISTENED_TOPICS ↔
        t ∈ g.LISTENED_TOPICS ∨ ∃ p ∈ r.processors, t ∈ p.listen_to.getD []) := by
  refine ⟨lookupProcs_extend_self _ _ _,
    fun t ht => lookupProcs_extend_other _ _ _ _ ht,
    List.subset_append_left _ _, fun t => ?_⟩
  show t ∈ g.LISTENED_TOPICS ++ listenedOf r.processors ↔ _
  rw [List.mem_append]
  unfold listenedOf
  rw [mem_listenedOf_aux]
  simp

/-- Witness for C10 at a concrete input: topics other than the added reader's
raw_topic keep their processor lists. -/
theorem C10_registry_append_w :
    lookupProcs
        (add_reader ⟨[("t", [⟨none, fun _ _ _ => ([], false)⟩])], ["x"]⟩
          ⟨"t", [⟨some ["y"], fun _ _ _ => ([], false)⟩]⟩).PROCESSORS
        "other"
      = lookupProcs [("t", [⟨none, fun _ _ _ => ([], false)⟩])] "other" :=
  (C10_registry_append
      ⟨[("t", [⟨none, fun _ _ _ => ([], false)⟩])], ["x"]⟩
      ⟨"t", [⟨some ["y"], fun _ _ _ => ([], false)⟩]⟩).2.1
    "other" (by decide)

/-- The time-window loop, in closed form for a finite window with s <= e:
take until the first record past e, keep those at or after s. -/
theorem mergeFilter_eq_takeWhile_filter (s e : Int) (hse : s ≤ e) :
    ∀ l : List Rec,
      BasePipeline.mergeFilter (.fin s) (.fin e) l
        = (l.takeWhile (fun r => decide (r.2.2 ≤ e))).filter
            (fun r => decide (s ≤ r.2.2)) := by
  intro l
  induction l with
  | nil => rfl
  | cons r rest ih =>
    by_cases h1 : r.2.2 < s
    · have hle : r.2.2 ≤ e := le_of_lt (lt_of_lt_of_le h1 hse)
      have hns : ¬ s ≤ r.2.2 := not_le.mpr h1
      simp only [BasePipeline.mergeFilter, tsLt, tsGt]
      simpa [h1, hle, hns, List.takeWhile_cons, List.filter_cons] using ih
    · by_cases h2 : e < r.2.2
      · have hngt : ¬ r.2.2 ≤ e := not_le.mpr h2
        simp only [BasePipeline.mergeFilter, tsLt, tsGt]
        simp [h1, h2, hngt, List.takeWhile_cons]
      · have hle : r.2.2 ≤ e := not_lt.mp h2
        have hs : s ≤ r.2.2 := not_lt.mp h1
        simp only [BasePipeline.mergeFilter, tsLt, tsGt]
        simp [h1, h2, hle, hs, List.takeWhile_cons, List.filter_cons, ih]

/-- Claim C2: for a finite window [s, e] with s <= e, the output of
get_merge_queue contains only records with s <= ts <= e (in particular none
with ts < s, and a record with ts exactly e passes both tests), and it equals
the merged stream truncated at the first record with ts > e (the cut stops
every source at once) and filtered to ts >= s. -/
theorem C2_time_window (s e : Int) (hse : s ≤ e) (readers : List (List Rec)) :
    (∀ r ∈ BasePipeline.get_merge_queue (.fin s) (.fin e) readers,
        s ≤ r.2.2 ∧ r.2.2 ≤ e)
    ∧ BasePipeline.get_merge_queue (.fin s) (.fin e) readers
        = ((hmerge readers).takeWhile (fun r => decide (r.2.2 ≤ e))).filter
            (fun r => decide (s ≤ r.2.2)) := by
  have heq := mergeFilter_eq_takeWhile_filter s e hse (hmerge readers)
  refine ⟨fun r hr => ?_, heq⟩
  rw [BasePipeline.get_merge_queue] at hr
  rw [heq] at hr
  have hmem := List.mem_filter.mp hr
  refine ⟨by simpa using hmem.2, ?_⟩
  have htw := List.mem_takeWhile_imp hmem.1
  simpa using htw

/-- Witness for C2 at a concrete input: with window [0, 10], a record with
timestamp exactly 10 is kept and a later record with timestamp 11 is cut. -/
theorem C2_time_window_w :
    BasePipeline.get_merge_queue (.fin 0) (.fin 10)
        [[("t", some "x", 10)], [("u", some "y", 11)]]
      = [("t", some "x", 10)] :=
  ((C2_time_window 0 10 (by decide)
      [[("t", some "x", 10)], [("u", some "y", 11)]]).2).trans (by decide)

/-- The chunk loop depends on its enumerate counter only through
count % size and count = 0. -/
theorem chunkGo_congr (size : Nat) :
    ∀ (l : List Rec) (buf : List Rec) (c1 c2 : Nat),
      c1 % size = c2 % size → c1 ≠ 0 → c2 ≠ 0 →
      BasePipeline.chunkGo size buf c1 l = BasePipeline.chunkGo size buf c2 l := by
  intro l
  induction l with
  | nil =>
    intro buf c1 c2 hm h1 h2
    simp [BasePipeline.chunkGo, h1, h2]
  | cons r rest ih =>
    intro buf c1 c2 hm h1 h2
    have hm1 : (c1 + 1) % size = (c2 + 1) % size := by
      rw [Nat.add_mod c1 1, Nat.add_mod c2 1, hm]
    simp only [BasePipeline.chunkGo]
    by_cases hz : c1 % size = 0
    · have hz2 : c2 % size = 0 := hm ▸ hz
      rw [if_pos ⟨hz, h1⟩, if_pos ⟨hz2, h2⟩,
        ih [r] (c1 + 1) (c2 + 1) hm1 (Nat.succ_ne_zero c1) (Nat.succ_ne_zero c2)]
    · have hz2 : ¬ c2 % size = 0 := by rw [← hm]; exact hz
      rw [if_neg (fun hcc => hz hcc.1), if_neg (fun hcc => hz2 hcc.1)]
      exact ih (r :: buf) (c1 + 1) (c2 + 1) hm1
        (Nat.succ_ne_zero c1) (Nat.succ_ne_zero c2)

/-- Mid-round invariant of the chunk loop: with j = buf.length records
already written into the current buffer (1 <= j <= size) and the counter
congruent to j mod size, the loop emits the completed current group followed
by the standard chunking of what remains. -/
theorem chunkGo_round (size : Nat) (hs : 1 ≤ size) :
    ∀ (rest : List Rec) (buf : List Rec) (count : Nat),
      buf ≠ [] → buf.length ≤ size → count % size = buf.length % size →
      count ≠ 0 →
      BasePipeline.chunkGo size buf count rest
        = (buf.reverse ++ rest.take (size - buf.length)) ::
            chunksStd size (rest.drop (size - buf.length)) := by
  intro rest
  induction rest with
  | nil =>
    intro buf count hbne hble hm hc
    simp [BasePipeline.chunkGo, hc, chunksStd]
  | cons r rest' ih =>
    intro buf count hbne hble hm hc
    by_cases hfull : buf.length = size
    · have hc0 : count % size = 0 := by rw [hm, hfull, Nat.mod_self]
      simp only [BasePipeline.chunkGo]
      rw [if_pos ⟨hc0, hc⟩]
      have hmod : (count + 1) % size = ([r] : List Rec).length % size := by
        rw [Nat.add_mod, hc0]
        simp [Nat.mod_mod]
      rw [ih [r] (count + 1) (by simp) (by simpa using hs) hmod
        (Nat.succ_ne_zero count)]
      have hz : size - buf.length = 0 := by omega
      rw [hz]
      simp [chunksStd]
    · have hlt : buf.length < size := lt_of_le_of_ne hble hfull
      have hbl0 : buf.length ≠ 0 := by simpa using hbne
      have hcne : ¬ count % size = 0 := by
        rw [hm, Nat.mod_eq_of_lt hlt]
        exact hbl0
      simp only [BasePipeline.chunkGo]
      rw [if_neg (fun hcc => hcne hcc.1)]
      have hmod : (count + 1) % size = (r :: buf).length % size := by
        rw [Nat.add_mod count 1, hm, ← Nat.add_mod]
        simp
      rw [ih (r :: buf) (count + 1) (by simp) (by simp; omega) hmod
        (Nat.succ_ne_zero count)]
      have hk : size - buf.length = (size - (r :: buf).length) + 1 := by
        simp only [List.length_cons]
        omega
      rw [hk]
      simp [List.take_succ_cons, List.drop_succ_cons, List.reverse_cons,
        List.append_assoc]

/-- For a positive chunk size, BasePipeline.chunk is the standard chunking. -/
theorem chunk_eq_chunksStd (size : Nat) (hs : 1 ≤ size) (l : List Rec) :
    BasePipeline.chunk size l = chunksStd size l := by
  cases l with
  | nil => simp [BasePipeline.chunk, BasePipeline.chunkGo, chunksStd]
  | cons r rest =>
    show BasePipeline.chunkGo size [] 0 (r :: rest) = _
    simp only [BasePipeline.chunkGo]
    rw [if_neg (fun hcc => hcc.2 rfl)]
    rw [chunkGo_round size hs rest [r] 1 (by simp) (by simpa using hs)
      (by simp) one_ne_zero]
    simp [chunksStd]

/-- Concatenating the standard chunks rebuilds the list. -/
theorem chunksStd_join (size : Nat) :
    ∀ (n : Nat) (l : List Rec), l.length ≤ n → (chunksStd size l).join = l := by
  intro n
  induction n with
  | zero =>
    intro l hl
    have : l = [] := List.length_eq_zero.mp (Nat.le_zero.mp hl)
    subst this
    simp [chunksStd]
  | succ n ih =>
    intro l hl
    cases l with
    | nil => simp [chunksStd]
    | cons r rest =>
      rw [chunksStd]
      have hrec := ih (rest.drop (size - 1)) (by
        simp only [List.length_drop]
        simp only [List.length_cons] at hl
        omega)
      simp only [List.join_cons, hrec, List.cons_append]
      rw [List.take_append_drop]

/-- Every standard chunk except possibly the last has exactly size
elements. -/
theorem chunksStd_dropLast (size : Nat) (hs : 1 ≤ size) :
    ∀ (n : Nat) (l : List Rec), l.length ≤ n →
      ∀ c ∈ (chunksStd size l).dropLast, c.length = size := by
  intro n
  induction n with
  | zero =>
    intro l hl c hc
    have : l = [] := List.length_eq_zero.mp (Nat.le_zero.mp hl)
    subst this
    simp [chunksStd] at hc
  | succ n ih =>
    intro l hl c hc
    cases l with
    | nil => simp [chunksStd] at hc
    | cons r rest =>
      rw [chunksStd] at hc
      cases hdrop : rest.drop (size - 1) with
      | nil =>
        rw [hdrop] at hc
        simp [chunksStd] at hc
      | cons d ds =>
        have htne : chunksStd size (rest.drop (size - 1)) ≠ [] := by
          rw [hdrop, chunksStd]
          exact List.cons_ne_nil _ _
        rw [List.dropLast_cons_of_ne_nil htne] at hc
        rcases List.mem_cons.mp hc with hc1 | hc2
        · have hrl : size - 1 < rest.length := by
            have h0 : (rest.drop (size - 1)).length ≠ 0 := by
              rw [hdrop]; simp
            simp only [List.length_drop] at h0
            omega
          subst hc1
          simp only [List.length_cons, List.length_take]
          omega
        · exact ih (rest.drop (size - 1)) (by
            simp only [List.length_drop]
            simp only [List.length_cons] at hl
            omega) c hc2

/-- Claim C5: for any chunk size >= 1, concatenating the batches of
BasePipeline.chunk reconstructs the input exactly, every batch except
possibly the last has exactly size elements, the empty input yields no
batches, and chunk size 2 over 5 records yields batch sizes [2, 2, 1]. -/
theorem C5_chunk (size : Nat) (hs : 1 ≤ size) (l : List Rec) :
    (BasePipeline.chunk size l).join = l
    ∧ (∀ c ∈ (BasePipeline.chunk size l).dropLast, c.length = size)
    ∧ BasePipeline.chunk size ([] : List Rec) = []
    ∧ (BasePipeline.chunk 2
        [("t", some "r1", 1), ("t", some "r2", 2), ("t", some "r3", 3),
         ("t", some "r4", 4), ("t", some "r5", 5)]).map List.length
      = [2, 2, 1] := by
  refine ⟨?_, ?_, rfl, by decide⟩
  · rw [chunk_eq_chunksStd size hs]
    exact chunksStd_join size l.length l le_rfl
  · rw [chunk_eq_chunksStd size hs]
    exact fun c hc => chunksStd_dropLast size hs l.length l le_rfl c hc

/-- Witness for C5 at a concrete input: chunk size 2 over 5 records is
lossless. -/
theorem C5_chunk_w :
    (BasePipeline.chunk 2
        [("t", some "r1", 1), ("t", some "r2", 2), ("t", some "r3", 3),
         ("t", some "r4", 4), ("t", some "r5", 5)]).join
      = [("t", some "r1", 1), ("t", some "r2", 2), ("t", some "r3", 3),
         ("t", some "r4", 4), ("t", some "r5", 5)] :=
  (C5_chunk 2 (by decide) _).1

/-- Counterexample to claim C4: with a healthy source of two "z" records and
a source whose single record (topic "a", sorting first under the tuple key)
is followed by a raise, the merge stops at the raise: the healthy source's
records are never yielded, so the merge does not continue with remaining
sources. -/
theorem C4_source_failure_cex :
    hmergeE [([("z", some "a1", 10), ("z", some "a2", 30)], false),
             ([("a", some "b1", 20)], true)]
      = ([("a", some "b1", 20)], true)
    ∧ ("z", some "a1", (10 : Int)) ∉
        (hmergeE [([("z", some "a1", 10), ("z", some "a2", 30)], false),
                  ([("a", some "b1", 20)], true)]).1 := by
  refine ⟨by decide, by decide⟩

/-- pickMin only fails on the empty heap. -/
theorem pickMin_eq_none : ∀ {l : List Ent}, pickMin l = none → l = [] := by
  intro l h
  cases l with
  | nil => rfl
  | cons a rest =>
    rw [pickMin] at h
    cases hrest : pickMin rest with
    | none => rw [hrest] at h; simp at h
    | some p =>
      rcases p with ⟨m, o⟩
      rw [hrest] at h
      by_cases hlt : entLt m a <;> simp [hlt] at h

/-- pickMin returns an element of the heap together with the rest, up to
permutation. -/
theorem pickMin_perm :
    ∀ (l : List Ent) (e : Ent) (o : List Ent),
      pickMin l = some (e, o) → l.Perm (e :: o) := by
  intro l
  induction l with
  | nil => intro e o h; simp [pickMin] at h
  | cons a rest ih =>
    intro e o h
    rw [pickMin] at h
    cases hrest : pickMin rest with
    | none =>
      rw [hrest] at h
      have hnil : rest = [] := pickMin_eq_none hrest
      subst hnil
      simp at h
      obtain ⟨rfl, rfl⟩ := h
      exact List.Perm.refl _
    | some p =>
      rcases p with ⟨m, others⟩
      rw [hrest] at h
      have hperm : rest.Perm (m :: others) := ih m others hrest
      by_cases hlt : entLt m a
      · simp [hlt] at h
        obtain ⟨rfl, rfl⟩ := h
        exact (hperm.cons a).trans (List.Perm.swap _ _ _)
      · simp [hlt] at h
        obtain ⟨rfl, rfl⟩ := h
        exact hperm.cons _

/-- When no heap entry can raise, the merge never reports an error. -/
theorem mergeRun_nofail :
    ∀ (n : Nat) (ents : List Ent),
      (∀ e ∈ ents, e.2.2.2 = false) → (mergeRun n ents).2 = false := by
  intro n
  induction n with
  | zero => intro ents _; rfl
  | succ n ih =>
    intro ents hflags
    rw [mergeRun]
    cases hp : pickMin ents with
    | none => rfl
    | some p =>
      rcases p with ⟨⟨idx, r, rest, f⟩, others⟩
      have hperm := pickMin_perm ents _ _ hp
      have hmem : ∀ x ∈ (⟨idx, r, rest, f⟩ : Ent) :: others, x ∈ ents :=
        fun x hx => hperm.symm.subset hx
      have hf : f = false :=
        hflags _ (hmem _ (List.mem_cons_self _ _))
      have hothers : ∀ e ∈ others, e.2.2.2 = false :=
        fun e he => hflags _ (hmem _ (List.mem_cons_of_mem _ he))
      cases rest with
      | nil =>
        subst hf
        simp only [if_false, Bool.false_eq_true]
        exact ih others hothers
      | cons r' rest' =>
        simp only
        refine ih _ (fun e he => ?_)
        rcases List.mem_cons.mp he with rfl | he2
        · exact hf
        · exact hothers e he2

/-- Sources that never raise build into a heap whose entries never raise. -/
theorem buildEnts_nofail :
    ∀ (srcs : List FSource) (idx : Nat), (∀ s ∈ srcs, s.2 = false) →
      ∃ ents, buildEnts idx srcs = some ents ∧ ∀ e ∈ ents, e.2.2.2 = false := by
  intro srcs
  induction srcs with
  | nil => intro idx _; exact ⟨[], rfl, by simp⟩
  | cons s rest ih =>
    intro idx hflags
    rcases s with ⟨src, f⟩
    have hf : f = false := hflags (src, f) (List.mem_cons_self _ _)
    subst hf
    have hrest : ∀ s ∈ rest, s.2 = false :=
      fun s hs => hflags s (List.mem_cons_of_mem _ hs)
    obtain ⟨ents, hb, hents⟩ := ih (idx + 1) hrest
    cases src with
    | nil => exact ⟨ents, by rw [buildEnts]; simpa using hb, hents⟩
    | cons r rs =>
      refine ⟨(idx, r, rs, false) :: ents, ?_, ?_⟩
      · rw [buildEnts, hb]
      · intro e he
        rcases List.mem_cons.mp he with rfl | he2
        · rfl
        · exact hents e he2

/-- The entry order ignores the raise flag. -/
theorem entLt_clearEnt (a b : Ent) :
    entLt (clearEnt a) (clearEnt b) = entLt a b := rfl

/-- pickMin commutes with clearing the raise flags. -/
theorem pickMin_clear :
    ∀ l : List Ent,
      pickMin (l.map clearEnt)
        = (pickMin l).map (fun p => (clearEnt p.1, p.2.map clearEnt)) := by
  intro l
  induction l with
  | nil => rfl
  | cons e rest ih =>
    rw [List.map_cons, pickMin, ih, pickMin]
    cases pickMin rest with
    | none => rfl
    | some p =>
      rcases p with ⟨m, others⟩
      simp only [Option.map_some', entLt_clearEnt]
      by_cases hlt : entLt m e <;> simp [hlt]

/-- Clearing the raise flags does not change the heap size. -/
theorem entsSize_clear (l : List Ent) :
    entsSize (l.map clearEnt) = entsSize l := by
  unfold entsSize
  rw [List.map_map]
  rfl

/-- The output of a merge with raising sources is a prefix of the output of
the same merge with all raises removed: a raise cuts off the whole stream,
and everything yielded before it agrees with the failure-free run. -/
theorem mergeRun_clear_prefix :
    ∀ (n : Nat) (ents : List Ent),
      ∃ t, (mergeRun n ents).1 ++ t = (mergeRun n (ents.map clearEnt)).1 := by
  intro n
  induction n with
  | zero => intro ents; exact ⟨[], rfl⟩
  | succ n ih =>
    intro ents
    rw [mergeRun, mergeRun, pickMin_clear]
    cases hp : pickMin ents with
    | none => exact ⟨[], rfl⟩
    | some p =>
      rcases p with ⟨⟨idx, r, rest, f⟩, others⟩
      simp only [Option.map_some']
      cases rest with
      | nil =>
        cases f with
        | true =>
          simp only [if_true, clearEnt]
          exact ⟨(mergeRun n (others.map clearEnt)).1, by simp⟩
        | false =>
          simp only [if_false, clearEnt]
          obtain ⟨t, ht⟩ := ih others
          exact ⟨t, by simp [ht]⟩
      | cons r' rest' =>
        simp only [clearEnt]
        obtain ⟨t, ht⟩ := ih ((idx, r', rest', f) :: others)
        refine ⟨t, ?_⟩
        have : ((idx, r', rest', f) :: others).map clearEnt
            = (idx, r', rest', false) :: others.map clearEnt := rfl
        rw [← this]
        simp [ht]

/-- Clearing source flags commutes with heap construction. -/
theorem buildEnts_clear :
    ∀ (srcs : List FSource) (idx : Nat) (ents : List Ent),
      buildEnts idx srcs = some ents →
      buildEnts idx (srcs.map (fun s => (s.1, false))) = some (ents.map clearEnt) := by
  intro srcs
  induction srcs with
  | nil =>
    intro idx ents h
    simp only [buildEnts] at h
    obtain rfl : ([] : List Ent) = ents := by simpa using h
    rfl
  | cons s rest ih =>
    intro idx ents h
    rcases s with ⟨src, f⟩
    cases src with
    | nil =>
      rw [buildEnts] at h
      cases f with
      | true => simp at h
      | false =>
        simp at h
        rw [List.map_cons]
        rw [buildEnts]
        simpa using ih (idx + 1) ents h
    | cons r rs =>
      rw [buildEnts] at h
      cases hb : buildEnts (idx + 1) rest with
      | none => rw [hb] at h; simp at h
      | some es =>
        rw [hb] at h
        simp only [Option.some.injEq] at h
        subst h
        rw [List.map_cons, buildEnts, ih (idx + 1) es hb]
        rfl

/-- Claim C4 (amended): a raise in one source is not caught by the merge; it
terminates the merged output as a whole.  Concretely: a merge over sources
that never raise is the plain merge with no error, and in general the output
of a merge with raising sources is a prefix of the failure-free merge of the
same record lists (everything yielded up to the raise agrees, and nothing at
all, from any source, is yielded after it). -/
theorem C4_source_failure_amended (srcs : List FSource) :
    ((∀ s ∈ srcs, s.2 = false) →
        hmergeE srcs = (hmerge (srcs.map Prod.fst), false))
    ∧ ∃ t, (hmergeE srcs).1 ++ t = hmerge (srcs.map Prod.fst) := by
  have hmm : (srcs.map Prod.fst).map (fun l => (l, false))
      = srcs.map (fun s => (s.1, false)) := by
    rw [List.map_map]
    rfl
  constructor
  · intro hflags
    have hsrcs : srcs.map (fun s => (s.1, false)) = srcs := by
      have hcg : ∀ s ∈ srcs, (s.1, false) = s := by
        intro s hs
        have h2 := hflags s hs
        rw [← h2]
      calc srcs.map (fun s => (s.1, false)) = srcs.map id :=
            List.map_congr_left hcg
        _ = srcs := List.map_id srcs
    unfold hmerge
    rw [hmm, hsrcs]
    have h2 : (hmergeE srcs).2 = false := by
      unfold hmergeE
      obtain ⟨ents, hb, hf⟩ := buildEnts_nofail srcs 0 hflags
      rw [hb]
      exact mergeRun_nofail _ _ hf
    rw [← h2]
  · show ∃ t, (hmergeE srcs).1 ++ t
        = (hmergeE ((srcs.map Prod.fst).map (fun l => (l, false)))).1
    rw [hmm]
    unfold hmergeE
    cases hb : buildEnts 0 srcs with
    | none => exact ⟨_, rfl⟩
    | some ents =>
      rw [buildEnts_clear srcs 0 ents hb]
      show ∃ t, (mergeRun (entsSize ents) ents).1 ++ t
          = (mergeRun (entsSize (ents.map clearEnt)) (ents.map clearEnt)).1
      rw [entsSize_clear]
      exact mergeRun_clear_prefix (entsSize ents) ents

/-- Witness for the amended C4 at a concrete input: a single non-raising
source merges with no error. -/
theorem C4_source_failure_w :
    hmergeE [([("t", some "m", 1)], false)]
      = (hmerge [[("t", some "m", 1)]], false) :=
  (C4_source_failure_amended [([("t", some "m", 1)], false)]).1 (by decide)

/-- The second component of an enumerated pair is a member of the list. -/
theorem snd_mem_of_mem_enum {α : Type} {l : List α} {ip : Nat × α}
    (h : ip ∈ l.enum) : ip.2 ∈ l := by
  have h2 := List.mem_enum_iff_getElem?.mp h
  exact List.getElem?_mem h2

/-- A processor found in the lookup table belongs to a table row. -/
theorem mem_row_of_mem_lookupProcs {ps : List (String × List Processor)}
    {t : String} {p : Processor} (h : p ∈ lookupProcs ps t) :
    ∃ tp ∈ ps, p ∈ tp.2 := by
  unfold lookupProcs at h
  cases hf : ps.find? (fun q => q.1 == t) with
  | none => rw [hf] at h; simp at h
  | some q =>
    rw [hf] at h
    exact ⟨q, List.mem_of_find?_eq_some hf, h⟩

/-- Appending one record to the prefix updates the spec-side most-recent
payload exactly for that record's topic. -/
theorem lastOf_append (t : String) (pre : List Rec) (r : Rec) :
    lastOf t (pre ++ [r]) = if r.1 = t then r.2.1 else lastOf t pre := by
  unfold lastOf
  rw [List.filter_append]
  by_cases h : r.1 = t
  · simp [h, List.getLast?_concat]
  · simp [h]

/-- Invariant propagation for BasePipeline.format: if last_msg agrees with
the spec-side most-recent payloads on all listened topics for the processed
prefix, the loop produces exactly the spec-side entries. -/
theorem format_spec_aux (ps : List (String × List Processor))
    (listened : List String)
    (hcl : ∀ tp ∈ ps, ∀ p ∈ tp.2, ∀ t ∈ p.listen_to.getD [], t ∈ listened) :
    ∀ (l : List Rec) (last : List (String × Msg)) (pre : List Rec),
      (∀ t, t ∈ listened → lookupLast last t = lastOf t pre) →
      BasePipeline.format ps listened last l = specFormat ps pre l := by
  intro l
  induction l with
  | nil => intro last pre _; rfl
  | cons r rest ih =>
    intro last pre hinv
    have hinv' : ∀ t, t ∈ listened →
        lookupLast (if r.1 ∈ listened then (r.1, r.2.1) :: last else last) t
          = lastOf t (pre ++ [r]) := by
      intro t ht
      rw [lastOf_append]
      by_cases hrt : r.1 = t
      · subst hrt
        rw [if_pos rfl, if_pos ht]
        unfold lookupLast
        simp [List.find?_cons]
      · rw [if_neg hrt]
        by_cases hrl : r.1 ∈ listened
        · rw [if_pos hrl]
          unfold lookupLast
          rw [List.find?_cons_of_neg _ (by simpa using hrt)]
          exact hinv t ht
        · rw [if_neg hrl]
          exact hinv t ht
    show BasePipeline.recEntries ps
          (if r.1 ∈ listened then (r.1, r.2.1) :: last else last) r
        ++ BasePipeline.format ps listened
            (if r.1 ∈ listened then (r.1, r.2.1) :: last else last) rest
      = ((lookupProcs ps r.1).enum).map
            (fun ip => ⟨r.1, ip.1, r.2.1, specListen ip.2 (pre ++ [r]), r.2.2⟩)
        ++ specFormat ps (pre ++ [r]) rest
    congr 1
    · unfold BasePipeline.recEntries
      apply List.map_congr_left
      intro ip hip
      have hp_mem : ip.2 ∈ lookupProcs ps r.1 := snd_mem_of_mem_enum hip
      obtain ⟨tp, htp, hptp⟩ := mem_row_of_mem_lookupProcs hp_mem
      have hlist : ∀ t ∈ ip.2.listen_to.getD [], t ∈ listened :=
        hcl tp htp ip.2 hptp
      have harg : listenArgs ip.2
            (if r.1 ∈ listened then (r.1, r.2.1) :: last else last)
          = specListen ip.2 (pre ++ [r]) := by
        unfold listenArgs specListen
        cases hLT : ip.2.listen_to with
        | none => rfl
        | some ts =>
          apply List.map_congr_left
          intro t ht
          have htl : t ∈ listened := hlist t (by rw [hLT]; simpa using ht)
          exact hinv' t htl
      rw [harg]
    · exact ih _ (pre ++ [r]) hinv'

/-- Topics never declared listened stay out of the last_msg state. -/
theorem formatState_mem (listened : List String) :
    ∀ (l : List Rec) (last : List (String × Msg)),
      (∀ e ∈ last, e.1 ∈ listened) →
      ∀ e ∈ BasePipeline.formatState listened last l, e.1 ∈ listened := by
  intro l
  induction l with
  | nil => intro last h e he; exact h e he
  | cons r rest ih =>
    intro last h e he
    rw [BasePipeline.formatState] at he
    refine ih (if r.1 ∈ listened then (r.1, r.2.1) :: last else last)
      (fun e' he' => ?_) e he
    by_cases hrl : r.1 ∈ listened
    · rw [if_pos hrl] at he'
      rcases List.mem_cons.mp he' with rfl | h2
      · exact hrl
      · exact h e' h2
    · rw [if_neg hrl] at he'
      exact h e' he'

/-- Claim C7: when every topic any registered processor listens to is in
LISTENED_TOPICS (which _add_reader guarantees), BasePipeline.format run from
an empty last_msg equals the spec-side description: each record first updates
the correlated state, then its entries carry, per listened topic, the most
recent payload up to and including that record (none if that topic has not
occurred); and only listened topics are ever stored in last_msg. -/
theorem C7_correlation (ps : List (String × List Processor))
    (listened : List String)
    (hcl : ∀ tp ∈ ps, ∀ p ∈ tp.2, ∀ t ∈ p.listen_to.getD [], t ∈ listened)
    (l : List Rec) :
    BasePipeline.format ps listened [] l = specFormat ps [] l
    ∧ ∀ e ∈ BasePipeline.formatState listened [] l, e.1 ∈ listened := by
  constructor
  · exact format_spec_aux ps listened hcl l [] [] (fun t _ => rfl)
  · exact formatState_mem listened l [] (by simp)

/-- Witness for C7 at a concrete input: a derived-topic processor listening
to "pose" observes none before any pose record and the latest pose payload
after one. -/
theorem C7_correlation_w :
    BasePipeline.format
        [("pose", [⟨none, fun _ _ _ => ([], false)⟩]),
         ("derived", [⟨some ["pose"], fun _ _ _ => ([], false)⟩])]
        ["pose"] []
        [("derived", some "d0", 1), ("pose", some "p1", 2),
         ("derived", some "d1", 3)]
      = specFormat
          [("pose", [⟨none, fun _ _ _ => ([], false)⟩]),
           ("derived", [⟨some ["pose"], fun _ _ _ => ([], false)⟩])]
          []
          [("derived", some "d0", 1), ("pose", some "p1", 2),
           ("derived", some "d1", 3)] :=
  (C7_correlation _ _ (by decide) _).1
